import Mathlib

/-!
Verification of the dynamical-decoupling padding engine
(`qiskit_ibm_provider/transpiler/passes/scheduling/dynamical_decoupling.py`).

The development embeds, as Lean definitions, the spacing allocator of
`PadDynamicalDecoupling._pad` (steps (1)-(2) of the source), the phase wrap
`PadDynamicalDecoupling._mod_2pi`, the sequence validation of
`PadDynamicalDecoupling._pre_runhook`, and the per-interval control flow of
`PadDynamicalDecoupling._pad`, and proves the spec-level properties about them.
Integer time values are modelled by `ℤ`, the fractional spacing values by `ℚ`,
and floating-point angles and matrix entries by `ℝ`/`ℂ`.
-/

/-- Source: `_constrained_length(values) = alignment * floor(values / alignment)`
applied to one scalar (numpy applies it elementwise). -/
def constrained_length (alignment : ℤ) (value : ℚ) : ℤ :=
  alignment * ⌊value / (alignment : ℚ)⌋

/-- Source: `taus = _constrained_length(slack * np.asarray(self._spacing))`,
the elementwise step (1) of `_pad`. -/
def dd_taus (alignment slack : ℤ) (spacing : List ℚ) : List ℤ :=
  spacing.map fun f => constrained_length alignment ((slack : ℚ) * f)

/-- Python list item update `taus[i] += x` on an integer list. -/
def add_at (l : List ℤ) (i : ℕ) (x : ℤ) : List ℤ :=
  l.set i (l.getD i 0 + x)

/-- Source: the `"middle"` branch of step (2) of `_pad`:
`mid_ind = int((len(taus) - 1) / 2)`, `to_middle = _constrained_length(extra_slack)`,
`taus[mid_ind] += to_middle`, and if `extra_slack - to_middle` is nonzero,
`taus[-1] += extra_slack - to_middle`. -/
def distribute_middle (alignment extra_slack : ℤ) (taus : List ℤ) : List ℤ :=
  let mid_ind := (taus.length - 1) / 2
  let to_middle := constrained_length alignment (extra_slack : ℚ)
  let taus1 := add_at taus mid_ind to_middle
  if extra_slack - to_middle ≠ 0 then
    add_at taus1 (taus1.length - 1) (extra_slack - to_middle)
  else
    taus1

/-- Source: the `"edges"` branch of step (2) of `_pad`:
`to_begin_edge = _constrained_length(extra_slack / 2)`, `taus[0] += to_begin_edge`,
`taus[-1] += extra_slack - to_begin_edge`. -/
def distribute_edges (alignment extra_slack : ℤ) (taus : List ℤ) : List ℤ :=
  let to_begin_edge := constrained_length alignment ((extra_slack : ℚ) / 2)
  let taus1 := add_at taus 0 to_begin_edge
  add_at taus1 (taus1.length - 1) (extra_slack - to_begin_edge)

/-- Steps (1)-(2) of `_pad`: compute the constrained delays, the extra slack,
and distribute it according to `extra_slack_distribution`; an unrecognized
value raises `TranspilerError` (modelled by `Except.error`). -/
def allocate_spacing (alignment slack : ℤ) (spacing : List ℚ)
    (extra_slack_distribution : String) : Except String (List ℤ) :=
  let taus := dd_taus alignment slack spacing
  let extra_slack := slack - taus.sum
  if extra_slack_distribution = "middle" then
    .ok (distribute_middle alignment extra_slack taus)
  else if extra_slack_distribution = "edges" then
    .ok (distribute_edges alignment extra_slack taus)
  else
    .error ("Option extra_slack_distribution = " ++ extra_slack_distribution ++ " is invalid.")

/-- Source (`_pre_runhook`): the default spacing
`[end] + [mid] * (num_pulses - 1) + [end]` with `mid = 1/num_pulses`,
`end = mid/2`. -/
def default_spacing (num_pulses : ℕ) : List ℚ :=
  let mid : ℚ := 1 / num_pulses
  let ending : ℚ := mid / 2
  [ending] ++ List.replicate (num_pulses - 1) mid ++ [ending]

/-- Python's float modulo `a % b` for a positive modulus `b`:
`a % b = b * fract(a / b)`, the representative of `a` in `[0, b)`. -/
noncomputable def python_mod (a b : ℝ) : ℝ :=
  b * Int.fract (a / b)

/-- Source: `_mod_2pi(angle, atol)`:
`wrapped = (angle + np.pi) % (2 * np.pi) - np.pi`, clamped to `-π` when
`abs(wrapped - np.pi) < atol`.  The `_pad` call site uses the default `atol = 0`. -/
noncomputable def mod_2pi (angle atol : ℝ) : ℝ :=
  let wrapped := python_mod (angle + Real.pi) (2 * Real.pi) - Real.pi
  if |wrapped - Real.pi| < atol then -Real.pi else wrapped

/-- Default absolute tolerance of qiskit's `matrix_equal` (`ATOL_DEFAULT = 1e-8`). -/
noncomputable def ATOL_DEFAULT : ℝ := 1 / 10 ^ 8

/-- Default relative tolerance of qiskit's `matrix_equal` (`RTOL_DEFAULT = 1e-5`). -/
noncomputable def RTOL_DEFAULT : ℝ := 1 / 10 ^ 5

/-- First entry of the 2x2 matrix (flat order) whose magnitude exceeds the
absolute tolerance, as used by `matrix_equal(..., ignore_phase=True)` to pick
the entry whose phase is divided out. -/
noncomputable def first_significant (M : Matrix (Fin 2) (Fin 2) ℂ) : Option ℂ :=
  if Complex.abs (M 0 0) > ATOL_DEFAULT then some (M 0 0)
  else if Complex.abs (M 0 1) > ATOL_DEFAULT then some (M 0 1)
  else if Complex.abs (M 1 0) > ATOL_DEFAULT then some (M 1 0)
  else if Complex.abs (M 1 1) > ATOL_DEFAULT then some (M 1 1)
  else none

/-- Multiply the matrix by `exp(-1j * angle(e))` for its first significant
entry `e` (the phase-removal step of `matrix_equal(..., ignore_phase=True)`). -/
noncomputable def dephase (M : Matrix (Fin 2) (Fin 2) ℂ) : Matrix (Fin 2) (Fin 2) ℂ :=
  match first_significant M with
  | some e => Complex.exp (-(Complex.arg e : ℂ) * Complex.I) • M
  | none => M

/-- Numpy's `np.allclose(M, N)`: elementwise `|M - N| <= atol + rtol * |N|`. -/
def allclose (M N : Matrix (Fin 2) (Fin 2) ℂ) : Prop :=
  ∀ i j, Complex.abs (M i j - N i j) ≤ ATOL_DEFAULT + RTOL_DEFAULT * Complex.abs (N i j)

/-- qiskit's `matrix_equal(M, N, ignore_phase=True)` (an external collaborator
of this pass): both matrices are dephased by the angle of their first
significant entry and compared elementwise within tolerance. -/
def matrix_equal_ignore_phase (M N : Matrix (Fin 2) (Fin 2) ℂ) : Prop :=
  allclose (dephase M) (dephase N)

open scoped Classical

/-- Source (`_pre_runhook`, identity-check section): for a sequence of length
other than one, fail when the length is odd, otherwise fold
`noop = noop.dot(gate.to_matrix())` starting from the identity, fail when
`matrix_equal(noop, I, ignore_phase=True)` is false, and otherwise store
`np.angle(noop[0][0])` as the sequence phase.  A length-1 sequence keeps the
initial `_sequence_phase = 0`. -/
noncomputable def check_dd_sequence (dd_sequence : List (Matrix (Fin 2) (Fin 2) ℂ)) :
    Except String ℝ :=
  if dd_sequence.length ≠ 1 then
    if dd_sequence.length % 2 ≠ 0 then
      .error "DD sequence must contain an even number of gates (or 1)."
    else
      let noop := dd_sequence.foldl (· * ·) (1 : Matrix (Fin 2) (Fin 2) ℂ)
      if matrix_equal_ignore_phase noop 1 then
        .ok (Complex.arg (noop 0 0))
      else
        .error "The DD sequence does not make an identity operation."
  else
    .ok 0

/-- Source (`_pre_runhook`, spacing section): default the spacing when none
is supplied, otherwise reject spacings that do not sum to 1 or contain a
negative entry. -/
def validate_spacing (num_pulses : ℕ) (spacing : Option (List ℚ)) :
    Except String (List ℚ) :=
  match spacing with
  | none => .ok (default_spacing num_pulses)
  | some sp =>
    if sp.sum ≠ 1 ∨ ∃ a ∈ sp, a < 0 then
      .error "The spacings must be given in terms of fractions of the slack period and sum to 1."
    else
      .ok sp

/-- External duration sources for `_pre_runhook`'s per-qubit loop:
`dag.calibrations[gate.name][(physical_index, gate.params)]` (which may miss),
and the `self._durations.get(gate, physical_index)` fallback. -/
structure DurTable where
  calibration : ℕ → ℕ → Option ℤ
  fallback : ℕ → ℕ → ℤ

/-- Source (`_pre_runhook`, duration loop body): a calibrated gate length that
is not a multiple of the alignment raises; a calibration miss falls back to
the duration table. -/
def gate_length_for (alignment : ℤ) (tbl : DurTable) (q g : ℕ) : Except String ℤ :=
  match tbl.calibration q g with
  | some gl =>
    if gl % alignment ≠ 0 then
      .error "Pulse gate with length non-multiple of the alignment constraint is not acceptable."
    else
      .ok gl
  | none => .ok (tbl.fallback q g)

/-- Source (`_pre_runhook`): resolve the sequence's gate lengths for one qubit. -/
def seq_lengths_for (alignment : ℤ) (tbl : DurTable) (num_pulses q : ℕ) :
    Except String (List ℤ) :=
  (List.range num_pulses).mapM (gate_length_for alignment tbl q)

/-- The configuration supplied to `PadDynamicalDecoupling.__init__`; gates are
modelled by their unitaries. -/
structure DDParams where
  dd_sequence : List (Matrix (Fin 2) (Fin 2) ℂ)
  qubits : Option (List ℕ)
  spacing : Option (List ℚ)
  skip_reset_qubits : Bool
  pulse_alignment : ℤ
  extra_slack_distribution : String

/-- State produced by `_pre_runhook`: the resolved spacing, the stored
sequence phase, and the per-qubit sequence length cache. -/
structure PreRunResult where
  spacing : List ℚ
  sequence_phase : ℝ
  dd_sequence_lengths : List (List ℤ)

/-- Source: `_pre_runhook` in order: the physical-circuit check, the spacing
default/validation, the sequence identity check, and the per-qubit duration
precomputation (over the qubits passing the `self._qubits` filter; a falsy
filter keeps every qubit). -/
noncomputable def pre_runhook (cfg : DDParams) (physical_circuit : Bool)
    (tbl : DurTable) (qubit_indices : List ℕ) : Except String PreRunResult :=
  if physical_circuit = false then
    .error "DD runs on physical circuits only."
  else
    match validate_spacing cfg.dd_sequence.length cfg.spacing with
    | .error e => .error e
    | .ok sp =>
      match check_dd_sequence cfg.dd_sequence with
      | .error e => .error e
      | .ok phase =>
        let targets := qubit_indices.filter fun q =>
          match cfg.qubits with
          | some qs => qs.isEmpty || qs.contains q
          | none => true
        match targets.mapM (seq_lengths_for cfg.pulse_alignment tbl cfg.dd_sequence.length) with
        | .error e => .error e
        | .ok lens => .ok ⟨sp, phase, lens⟩

/-- An operation emitted onto the timeline by `_apply_scheduled_op`: a delay
of a given duration, or the `idx`-th sequence gate with its resolved length. -/
inductive PadOp
  | delay (duration : ℤ)
  | gate (idx : ℕ) (gate_length : ℤ)
deriving DecidableEq

/-- The predecessor/successor of an idle interval: the qubit's start edge
(`DAGInNode`) or an operation node, whose operation may be a `Reset`, and may
be a `UGate`/`U3Gate` rotation carrying three Euler-angle parameters. -/
inductive PadNode
  | inNode : PadNode
  | opNode (is_reset : Bool) (is_u3 : Bool) (params : ℝ × ℝ × ℝ) : PadNode

/-- One idle interval handed to `_pad` by the block traversal driver. -/
structure IntervalData where
  phys_index : ℕ
  t_start : ℤ
  t_end : ℤ
  next_node : PadNode
  prev_node : PadNode
  seq_lengths : List ℤ

/-- External qiskit helpers used by the length-1 absorber:
`OneQubitEulerDecomposer().angles_and_phase` and
`Optimize1qGates.compose_u3` (six angles in, three out). -/
structure EulerFns where
  angles_and_phase : Matrix (Fin 2) (Fin 2) ℂ → ℝ × ℝ × ℝ × ℝ
  compose_u3 : ℝ × ℝ × ℝ → ℝ × ℝ × ℝ → ℝ × ℝ × ℝ

/-- Effect of one `_pad` call: the operations emitted onto the timeline (with
their start times), the possibly-mutated neighbor nodes, and the circuit's
global phase after the call. -/
structure PadResult where
  emitted : List (ℤ × PadOp)
  next_node : PadNode
  prev_node : PadNode
  global_phase : ℝ

/-- Source check `isinstance(node, DAGOpNode) and isinstance(node.op, (UGate, U3Gate))`. -/
def is_u3_node : PadNode → Bool
  | .opNode _ u _ => u
  | .inNode => false

/-- Source check `isinstance(node, DAGInNode) or isinstance(node.op, Reset)`. -/
def is_in_or_reset : PadNode → Bool
  | .inNode => true
  | .opNode r _ _ => r

/-- The node's `op.params` (only read on `UGate`/`U3Gate` nodes). -/
def node_params : PadNode → ℝ × ℝ × ℝ
  | .opNode _ _ p => p
  | .inNode => (0, 0, 0)

/-- In-place mutation `node.op.params = new_params`. -/
def set_node_params : PadNode → ℝ × ℝ × ℝ → PadNode
  | .opNode r u _, p => .opNode r u p
  | .inNode, _ => .inNode

/-- Pair the allocated delays with the sequence gate lengths positionwise, so
that position `dd_ind` of the emission loop sees `taus[dd_ind]` (when
`dd_ind < len(taus)`) and the `dd_ind`-th gate (when `dd_ind` is below the
sequence length); the loop runs to `max` of the two lengths. -/
def pad_zip : List ℤ → List ℤ → List (Option ℤ × Option ℤ)
  | [], [] => []
  | [], l :: ls => (none, some l) :: pad_zip [] ls
  | t :: ts, [] => (some t, none) :: pad_zip ts []
  | t :: ts, l :: ls => (some t, some l) :: pad_zip ts ls

/-- Step (3) of `_pad`: walk the positions, emitting each positive delay at
`idle_after` (then advancing it) and each sequence gate at `idle_after` (then
advancing by the gate length); returns the emissions and the final
`idle_after`. -/
def emit_seq : List (Option ℤ × Option ℤ) → ℕ → ℤ → List (ℤ × PadOp) × ℤ
  | [], _, idle_after => ([], idle_after)
  | p :: rest, dd_ind, idle_after =>
    let step1 : List (ℤ × PadOp) × ℤ :=
      match p.1 with
      | some tau =>
        if 0 < tau then ([(idle_after, .delay tau)], idle_after + tau)
        else ([], idle_after)
      | none => ([], idle_after)
    let step2 : List (ℤ × PadOp) × ℤ :=
      match p.2 with
      | some gl => ([(step1.2, .gate dd_ind gl)], step1.2 + gl)
      | none => ([], step1.2)
    let rest2 := emit_seq rest (dd_ind + 1) step2.2
    (step1.1 ++ step2.1 ++ rest2.1, rest2.2)

/-- The tail of `_pad` after the skip checks and the absorber: allocate the
delays (raising on an unrecognized `extra_slack_distribution`), run the
emission loop from `t_start`, and fold the accumulated phase into the
circuit's global phase through `_mod_2pi` (default `atol = 0`). -/
noncomputable def pad_fill (cfg : DDParams) (spacing : List ℚ) (iv : IntervalData)
    (next1 prev1 : PadNode) (sequence_gphase : ℝ) (slack : ℤ) (global_phase : ℝ) :
    Except String PadResult :=
  match allocate_spacing cfg.pulse_alignment slack spacing cfg.extra_slack_distribution with
  | .error e => .error e
  | .ok taus =>
    .ok ⟨(emit_seq (pad_zip taus iv.seq_lengths) 0 iv.t_start).1, next1, prev1,
      mod_2pi (global_phase + sequence_gphase) 0⟩

/-- Source: `_pad`, the per-interval state machine.  In order: the qubit
filter, the `skip_reset_qubits` check, the slack check (each emitting a single
full-interval delay), the length-1 absorber (absorb the inverse into a
`UGate`/`U3Gate` successor, else predecessor, else fall back to a single
full-interval delay), and otherwise the fill path `pad_fill`. -/
noncomputable def pad (cfg : DDParams) (spacing : List ℚ) (sequence_phase : ℝ)
    (fns : EulerFns) (iv : IntervalData) (global_phase : ℝ) : Except String PadResult :=
  let time_interval := iv.t_end - iv.t_start
  let qubit_filtered : Bool :=
    match cfg.qubits with
    | some qs => !qs.isEmpty && !qs.contains iv.phys_index
    | none => false
  if qubit_filtered then
    .ok ⟨[(iv.t_start, .delay time_interval)], iv.next_node, iv.prev_node, global_phase⟩
  else if cfg.skip_reset_qubits && is_in_or_reset iv.prev_node then
    .ok ⟨[(iv.t_start, .delay time_interval)], iv.next_node, iv.prev_node, global_phase⟩
  else
    let slack := time_interval - iv.seq_lengths.sum
    if slack ≤ 0 then
      .ok ⟨[(iv.t_start, .delay time_interval)], iv.next_node, iv.prev_node, global_phase⟩
    else
      if cfg.dd_sequence.length = 1 then
        let u_inv := (cfg.dd_sequence.getD 0 1)⁻¹
        let angs := fns.angles_and_phase u_inv
        if is_u3_node iv.next_node then
          let new_next := set_node_params iv.next_node
            (fns.compose_u3 (node_params iv.next_node) (angs.1, angs.2.1, angs.2.2.1))
          pad_fill cfg spacing iv new_next iv.prev_node
            (sequence_phase + angs.2.2.2) slack global_phase
        else if is_u3_node iv.prev_node then
          let new_prev := set_node_params iv.prev_node
            (fns.compose_u3 (angs.1, angs.2.1, angs.2.2.1) (node_params iv.prev_node))
          pad_fill cfg spacing iv iv.next_node new_prev
            (sequence_phase + angs.2.2.2) slack global_phase
        else
          .ok ⟨[(iv.t_start, .delay time_interval)], iv.next_node, iv.prev_node, global_phase⟩
      else
        pad_fill cfg spacing iv iv.next_node iv.prev_node sequence_phase slack global_phase

/-- The external block traversal: call `_pad` once per idle interval in
order, accumulating the emitted operations onto the timeline and threading
the global phase; an exception aborts the walk, keeping what was already
emitted. -/
noncomputable def run_intervals (cfg : DDParams) (spacing : List ℚ) (sequence_phase : ℝ)
    (fns : EulerFns) : List IntervalData → ℝ → List (ℤ × PadOp) × Option String
  | [], _ => ([], none)
  | iv :: rest, gphase =>
    match pad cfg spacing sequence_phase fns iv gphase with
    | .error e => ([], some e)
    | .ok res =>
      let tail := run_intervals cfg spacing sequence_phase fns rest res.global_phase
      (res.emitted ++ tail.1, tail.2)

/-- A whole pass run: `_pre_runhook` first (an error there aborts before any
interval is processed), then the per-interval padding walk. -/
noncomputable def run_pass (cfg : DDParams) (fns : EulerFns) (physical_circuit : Bool)
    (tbl : DurTable) (qubit_indices : List ℕ) (intervals : List IntervalData)
    (initial_phase : ℝ) : List (ℤ × PadOp) × Option String :=
  match pre_runhook cfg physical_circuit tbl qubit_indices with
  | .error e => ([], some e)
  | .ok pre => run_intervals cfg pre.spacing pre.sequence_phase fns intervals initial_phase

/-- Duration on the timeline of an emitted operation. -/
def op_duration : PadOp → ℤ
  | .delay d => d
  | .gate _ gl => gl

/-- Tiling predicate: in `tiles_from t ops t_stop` the operations sit contiguously on the
timeline, the first starting at `t`, each next one starting where the
previous ended, and the last ending exactly at `t_stop`. -/
def tiles_from : ℤ → List (ℤ × PadOp) → ℤ → Prop
  | t, [], t_stop => t = t_stop
  | t, p :: rest, t_stop => p.1 = t ∧ tiles_from (t + op_duration p.2) rest t_stop

/-- Contribution of one emission-loop position to the advance of
`idle_after`: a positive delay advances by its length (a non-positive one is
skipped), a gate advances by its gate length. -/
def zip_contrib : Option ℤ × Option ℤ → ℤ
  | (tau?, len?) =>
    (match tau? with
     | some tau => if 0 < tau then tau else 0
     | none => 0) +
    (match len? with
     | some gl => gl
     | none => 0)

/-- The Pauli-X unitary, `XGate().to_matrix()`. -/
def x_mat : Matrix (Fin 2) (Fin 2) ℂ := !![0, 1; 1, 0]

/-- Trivial stand-ins for the external Euler-decomposition helpers (the
claims proved below never depend on their values). -/
def euler_fns0 : EulerFns :=
  ⟨fun _ => (0, 0, 0, 0), fun _ p => p⟩

/-- A duration table with no calibrations and every gate 50 dt long. -/
def dur_table0 : DurTable :=
  ⟨fun _ _ => none, fun _ _ => 50⟩

/-- An X-X configuration whose `extra_slack_distribution` is unrecognized. -/
def cfg_bogus : DDParams :=
  ⟨[x_mat, x_mat], none, none, true, 1, "junk"⟩

/-- An X-X configuration with default spacing and `"middle"` distribution. -/
def cfg_xx : DDParams :=
  ⟨[x_mat, x_mat], none, none, true, 1, "middle"⟩

/-- A single-gate (Hahn echo) configuration. -/
def cfg_single : DDParams :=
  ⟨[x_mat], none, none, true, 1, "middle"⟩

/-- An X-X-X (odd length 3) configuration. -/
def cfg_xxx : DDParams :=
  ⟨[x_mat, x_mat, x_mat], none, none, true, 1, "middle"⟩

/-- An idle interval whose predecessor is a `Reset` operation. -/
def iv_reset : IntervalData :=
  ⟨0, 0, 100, PadNode.opNode false false (0, 0, 0), PadNode.opNode true false (0, 0, 0), [50, 50]⟩

/-- An idle interval of 300 dt between two plain operation nodes. -/
def iv_fill : IntervalData :=
  ⟨0, 0, 300, PadNode.opNode false false (0, 0, 0), PadNode.opNode false false (0, 0, 0), [50, 50]⟩

/-- A 50 dt idle interval between two plain (non-rotation) operation nodes,
for the single-gate sequence (gate length 10, slack 40). -/
def iv_plain : IntervalData :=
  ⟨0, 0, 50, PadNode.opNode false false (0, 0, 0), PadNode.opNode false false (0, 0, 0), [10]⟩

theorem add_at_length (l : List ℤ) (i : ℕ) (x : ℤ) :
    (add_at l i x).length = l.length := by
  simp [add_at]

theorem add_at_sum {l : List ℤ} {i : ℕ} (h : i < l.length) (x : ℤ) :
    (add_at l i x).sum = l.sum + x := by
  induction l generalizing i with
  | nil => simp at h
  | cons a t ih =>
    cases i with
    | zero => simp [add_at]; ring
    | succ n =>
      have hn : n < t.length := by simpa using h
      have h2 := ih hn
      simp only [add_at, List.getD_eq_getElem?_getD] at h2 ⊢
      simp only [List.set, List.getElem?_cons_succ, List.sum_cons]
      omega

theorem add_at_getD {l : List ℤ} {i j : ℕ} (hj : j < l.length) (x : ℤ) :
    (add_at l i x).getD j 0 = if j = i then l.getD j 0 + x else l.getD j 0 := by
  induction l generalizing i j with
  | nil => simp at hj
  | cons a t ih =>
    cases i with
    | zero =>
      cases j with
      | zero => simp [add_at]
      | succ m => simp [add_at]
    | succ n =>
      cases j with
      | zero => simp [add_at]
      | succ m =>
        have hm : m < t.length := by simpa using hj
        have := @ih n m hm
        simp only [add_at] at this ⊢
        simpa [List.set] using this

theorem add_at_nonneg {l : List ℤ} {i : ℕ} {x : ℤ}
    (hl : ∀ t ∈ l, 0 ≤ t) (hx : 0 ≤ x) :
    ∀ t ∈ add_at l i x, 0 ≤ t := by
  intro t ht
  rcases List.mem_or_eq_of_mem_set ht with h | h
  · exact hl t h
  · subst h
    apply add_nonneg _ hx
    by_cases hi : i < l.length
    · have : l.getD i 0 = l[i] := by
        simp [List.getD_eq_getElem?_getD, List.getElem?_eq_getElem hi]
      rw [this]
      exact hl _ (List.getElem_mem hi)
    · simp [List.getD_eq_getElem?_getD, List.getElem?_eq_none (by omega : l.length ≤ i)]

theorem list_getD_dvd {A : ℤ} {l : List ℤ} (h : ∀ t ∈ l, A ∣ t) (i : ℕ) :
    A ∣ l.getD i 0 := by
  by_cases hi : i < l.length
  · have : l.getD i 0 = l[i] := by
      simp [List.getD_eq_getElem?_getD, List.getElem?_eq_getElem hi]
    rw [this]
    exact h _ (List.getElem_mem hi)
  · simp [List.getD_eq_getElem?_getD, List.getElem?_eq_none (by omega : l.length ≤ i)]

theorem constrained_length_cast_le {A : ℤ} (hA : 0 < A) (x : ℚ) :
    ((constrained_length A x : ℤ) : ℚ) ≤ x := by
  have hAq : (0 : ℚ) < (A : ℚ) := by exact_mod_cast hA
  have h1 : ((⌊x / (A : ℚ)⌋ : ℤ) : ℚ) ≤ x / (A : ℚ) := Int.floor_le _
  have h2 : (A : ℚ) * ((⌊x / (A : ℚ)⌋ : ℤ) : ℚ) ≤ (A : ℚ) * (x / (A : ℚ)) :=
    mul_le_mul_of_nonneg_left h1 (le_of_lt hAq)
  have h3 : (A : ℚ) * (x / (A : ℚ)) = x := mul_div_cancel₀ x (ne_of_gt hAq)
  have h4 : ((constrained_length A x : ℤ) : ℚ) = (A : ℚ) * ((⌊x / (A : ℚ)⌋ : ℤ) : ℚ) := by
    simp [constrained_length]
  rw [h4]
  rw [h3] at h2
  exact h2

theorem constrained_length_nonneg {A : ℤ} (hA : 0 < A) {x : ℚ} (hx : 0 ≤ x) :
    0 ≤ constrained_length A x := by
  have hAq : (0 : ℚ) < (A : ℚ) := by exact_mod_cast hA
  have : (0 : ℤ) ≤ ⌊x / (A : ℚ)⌋ := Int.floor_nonneg.mpr (div_nonneg hx (le_of_lt hAq))
  exact mul_nonneg (le_of_lt hA) this

theorem constrained_length_dvd (A : ℤ) (x : ℚ) : A ∣ constrained_length A x :=
  Dvd.intro _ rfl

theorem dd_taus_length (alignment slack : ℤ) (spacing : List ℚ) :
    (dd_taus alignment slack spacing).length = spacing.length := by
  simp [dd_taus]

theorem dd_taus_dvd (alignment slack : ℤ) (spacing : List ℚ) :
    ∀ t ∈ dd_taus alignment slack spacing, alignment ∣ t := by
  intro t ht
  rcases List.mem_map.mp ht with ⟨f, _, rfl⟩
  exact constrained_length_dvd _ _

theorem dd_taus_nonneg {alignment slack : ℤ} (hA : 0 < alignment) (hs : 0 ≤ slack)
    {spacing : List ℚ} (hnn : ∀ f ∈ spacing, 0 ≤ f) :
    ∀ t ∈ dd_taus alignment slack spacing, 0 ≤ t := by
  intro t ht
  rcases List.mem_map.mp ht with ⟨f, hf, rfl⟩
  exact constrained_length_nonneg hA
    (mul_nonneg (by exact_mod_cast hs) (hnn f hf))

theorem dd_taus_sum_le {alignment slack : ℤ} (hA : 0 < alignment)
    {spacing : List ℚ} (hsum : spacing.sum = 1) :
    (dd_taus alignment slack spacing).sum ≤ slack := by
  have hcast : ((dd_taus alignment slack spacing).sum : ℚ) ≤ (slack : ℚ) := by
    have h1 : ((dd_taus alignment slack spacing).sum : ℚ)
        = (spacing.map fun f => ((constrained_length alignment ((slack : ℚ) * f) : ℤ) : ℚ)).sum := by
      rw [dd_taus, Int.cast_list_sum, List.map_map]
      rfl
    have h2 : (spacing.map fun f => ((constrained_length alignment ((slack : ℚ) * f) : ℤ) : ℚ)).sum
        ≤ (spacing.map fun f => (slack : ℚ) * f).sum := by
      apply List.sum_le_sum
      intro f _
      exact constrained_length_cast_le hA _
    have h3 : (spacing.map fun f => (slack : ℚ) * f).sum = (slack : ℚ) := by
      have h5 := List.sum_map_mul_left spacing (fun x => x) ((slack : ℚ))
      simpa [hsum] using h5
    rw [h1]
    exact le_of_le_of_eq h2 h3
  exact_mod_cast hcast

theorem distribute_middle_length (alignment extra_slack : ℤ) (taus : List ℤ) :
    (distribute_middle alignment extra_slack taus).length = taus.length := by
  simp only [distribute_middle]
  split <;> simp [add_at_length]

theorem distribute_edges_length (alignment extra_slack : ℤ) (taus : List ℤ) :
    (distribute_edges alignment extra_slack taus).length = taus.length := by
  simp [distribute_edges, add_at_length]

theorem distribute_middle_sum {alignment extra_slack : ℤ} {taus : List ℤ} (h : taus ≠ []) :
    (distribute_middle alignment extra_slack taus).sum = taus.sum + extra_slack := by
  have hlen : 0 < taus.length := List.length_pos.mpr h
  have hmid : (taus.length - 1) / 2 < taus.length := by omega
  simp only [distribute_middle]
  split
  · rw [add_at_sum (by rw [add_at_length]; omega), add_at_sum hmid]
    ring
  · next hrem =>
    rw [add_at_sum hmid]
    omega

theorem distribute_edges_sum {alignment extra_slack : ℤ} {taus : List ℤ} (h : taus ≠ []) :
    (distribute_edges alignment extra_slack taus).sum = taus.sum + extra_slack := by
  have hlen : 0 < taus.length := List.length_pos.mpr h
  simp only [distribute_edges]
  rw [add_at_sum (by rw [add_at_length]; omega), add_at_sum hlen]
  ring

theorem distribute_middle_dvd {alignment extra_slack : ℤ} {taus : List ℤ}
    (hlen : 2 ≤ taus.length) (hdvd : ∀ t ∈ taus, alignment ∣ t) :
    ∀ i, i + 1 < taus.length →
      alignment ∣ (distribute_middle alignment extra_slack taus).getD i 0 := by
  intro i hi
  have hmid : (taus.length - 1) / 2 < taus.length := by omega
  have hbase : alignment ∣ (add_at taus ((taus.length - 1) / 2)
      (constrained_length alignment (extra_slack : ℚ))).getD i 0 := by
    rw [add_at_getD (by omega : i < taus.length)]
    split
    · exact dvd_add (list_getD_dvd hdvd i) (constrained_length_dvd _ _)
    · exact list_getD_dvd hdvd i
  simp only [distribute_middle]
  split
  · rw [add_at_getD (by rw [add_at_length]; omega : i < (add_at taus _ _).length)]
    rw [add_at_length]
    rw [if_neg (by omega : ¬ i = taus.length - 1)]
    exact hbase
  · exact hbase

theorem distribute_edges_dvd {alignment extra_slack : ℤ} {taus : List ℤ}
    (hlen : 2 ≤ taus.length) (hdvd : ∀ t ∈ taus, alignment ∣ t) :
    ∀ i, i + 1 < taus.length →
      alignment ∣ (distribute_edges alignment extra_slack taus).getD i 0 := by
  intro i hi
  simp only [distribute_edges]
  rw [add_at_getD (by rw [add_at_length]; omega : i < (add_at taus 0 _).length)]
  rw [add_at_length]
  rw [if_neg (by omega : ¬ i = taus.length - 1)]
  rw [add_at_getD (by omega : i < taus.length)]
  split
  · exact dvd_add (list_getD_dvd hdvd i) (constrained_length_dvd _ _)
  · exact list_getD_dvd hdvd i

theorem distribute_middle_nonneg {alignment extra_slack : ℤ} {taus : List ℤ}
    (hA : 0 < alignment) (he : 0 ≤ extra_slack) (ht : ∀ t ∈ taus, 0 ≤ t) :
    ∀ t ∈ distribute_middle alignment extra_slack taus, 0 ≤ t := by
  have hmid : 0 ≤ constrained_length alignment (extra_slack : ℚ) :=
    constrained_length_nonneg hA (by exact_mod_cast he)
  have hrem : constrained_length alignment (extra_slack : ℚ) ≤ extra_slack := by
    have := constrained_length_cast_le hA (extra_slack : ℚ)
    exact_mod_cast this
  simp only [distribute_middle]
  split
  · exact add_at_nonneg (add_at_nonneg ht hmid) (by omega)
  · exact add_at_nonneg ht hmid

theorem distribute_edges_nonneg {alignment extra_slack : ℤ} {taus : List ℤ}
    (hA : 0 < alignment) (he : 0 ≤ extra_slack) (ht : ∀ t ∈ taus, 0 ≤ t) :
    ∀ t ∈ distribute_edges alignment extra_slack taus, 0 ≤ t := by
  have hb : 0 ≤ constrained_length alignment ((extra_slack : ℚ) / 2) :=
    constrained_length_nonneg hA (by positivity)
  have hb2 : constrained_length alignment ((extra_slack : ℚ) / 2) ≤ extra_slack := by
    have h1 := constrained_length_cast_le hA ((extra_slack : ℚ) / 2)
    have h2 : ((extra_slack : ℚ) / 2) ≤ (extra_slack : ℚ) := by
      have : (0 : ℚ) ≤ (extra_slack : ℚ) := by exact_mod_cast he
      linarith
    exact_mod_cast le_trans h1 h2
  exact add_at_nonneg (add_at_nonneg ht hb) (by omega)

theorem allocate_spacing_sum {alignment slack : ℤ} {spacing : List ℚ}
    {dist : String} {taus : List ℤ} (hsp : spacing ≠ [])
    (hok : allocate_spacing alignment slack spacing dist = .ok taus) :
    taus.sum = slack := by
  have hne : dd_taus alignment slack spacing ≠ [] := by
    intro h
    exact hsp (by simpa [dd_taus] using h)
  simp only [allocate_spacing] at hok
  split at hok
  · cases hok
    rw [distribute_middle_sum hne]
    ring
  · split at hok
    · cases hok
      rw [distribute_edges_sum hne]
      ring
    · cases hok

theorem allocate_spacing_length {alignment slack : ℤ} {spacing : List ℚ}
    {dist : String} {taus : List ℤ}
    (hok : allocate_spacing alignment slack spacing dist = .ok taus) :
    taus.length = spacing.length := by
  simp only [allocate_spacing] at hok
  split at hok
  · cases hok
    rw [distribute_middle_length, dd_taus_length]
  · split at hok
    · cases hok
      rw [distribute_edges_length, dd_taus_length]
    · cases hok

theorem allocate_spacing_ok (alignment slack : ℤ) (spacing : List ℚ) {dist : String}
    (hdist : dist = "middle" ∨ dist = "edges") :
    ∃ taus, allocate_spacing alignment slack spacing dist = .ok taus := by
  rcases hdist with h | h <;> subst h <;> simp [allocate_spacing]

theorem allocate_spacing_dvd {alignment slack : ℤ} {spacing : List ℚ}
    {dist : String} {taus : List ℤ} (hA : 0 < alignment) (hsp : 2 ≤ spacing.length)
    (hok : allocate_spacing alignment slack spacing dist = .ok taus) :
    ∀ i, i + 1 < taus.length → alignment ∣ taus.getD i 0 := by
  have hlen : 2 ≤ (dd_taus alignment slack spacing).length := by
    rw [dd_taus_length]; exact hsp
  have hdvd := dd_taus_dvd alignment slack spacing
  simp only [allocate_spacing] at hok
  split at hok
  · cases hok
    intro i hi
    rw [distribute_middle_length] at hi
    exact distribute_middle_dvd hlen hdvd i hi
  · split at hok
    · cases hok
      intro i hi
      rw [distribute_edges_length] at hi
      exact distribute_edges_dvd hlen hdvd i hi
    · cases hok

theorem allocate_spacing_nonneg {alignment slack : ℤ} {spacing : List ℚ}
    {dist : String} {taus : List ℤ} (hA : 0 < alignment) (hs : 0 ≤ slack)
    (hsum : spacing.sum = 1) (hnn : ∀ f ∈ spacing, 0 ≤ f)
    (hok : allocate_spacing alignment slack spacing dist = .ok taus) :
    ∀ t ∈ taus, 0 ≤ t := by
  have hbase := dd_taus_nonneg hA hs hnn
  have hextra : 0 ≤ slack - (dd_taus alignment slack spacing).sum := by
    have := @dd_taus_sum_le alignment slack hA spacing hsum
    omega
  simp only [allocate_spacing] at hok
  split at hok
  · cases hok
    exact distribute_middle_nonneg hA hextra hbase
  · split at hok
    · cases hok
      exact distribute_edges_nonneg hA hextra hbase
    · cases hok

theorem mod_2pi_mem (angle atol : ℝ) :
    mod_2pi angle atol ∈ Set.Ico (-Real.pi) Real.pi := by
  have h2pi : (0 : ℝ) < 2 * Real.pi := by positivity
  have hfr0 : 0 ≤ Int.fract ((angle + Real.pi) / (2 * Real.pi)) := Int.fract_nonneg _
  have hfr1 : Int.fract ((angle + Real.pi) / (2 * Real.pi)) < 1 := Int.fract_lt_one _
  have hw0 : 0 ≤ python_mod (angle + Real.pi) (2 * Real.pi) :=
    mul_nonneg (le_of_lt h2pi) hfr0
  have hw1 : python_mod (angle + Real.pi) (2 * Real.pi) < 2 * Real.pi := by
    have := (mul_lt_mul_of_pos_left hfr1 h2pi)
    simpa [python_mod] using this
  simp only [mod_2pi]
  split
  · exact ⟨le_refl _, by linarith [Real.pi_pos]⟩
  · exact ⟨by linarith, by linarith⟩

theorem mod_2pi_clamp {ε atol : ℝ} (hε : 0 ≤ ε) (hlt : ε < atol)
    (hatol : atol ≤ 2 * Real.pi) : mod_2pi (Real.pi - ε) atol = -Real.pi := by
  have h2pi : (0 : ℝ) < 2 * Real.pi := by positivity
  rcases eq_or_lt_of_le hε with h0 | hpos
  · have harg : (Real.pi - ε + Real.pi) / (2 * Real.pi) = 1 := by
      rw [← h0]
      field_simp
      ring
    have hpm : python_mod (Real.pi - ε + Real.pi) (2 * Real.pi) = 0 := by
      simp [python_mod, harg]
    simp only [mod_2pi, hpm]
    rw [if_neg]
    · ring
    · rw [abs_of_nonpos (by linarith [Real.pi_pos])]
      intro habs
      have : 2 * Real.pi < atol := by linarith
      linarith
  · have hεlt : ε < 2 * Real.pi := lt_of_lt_of_le hlt hatol
    have harg : (Real.pi - ε + Real.pi) / (2 * Real.pi) = 1 - ε / (2 * Real.pi) := by
      field_simp
      ring
    have hfr : Int.fract (1 - ε / (2 * Real.pi)) = 1 - ε / (2 * Real.pi) := by
      rw [Int.fract_eq_self]
      constructor
      · have : ε / (2 * Real.pi) < 1 := by
          rw [div_lt_one h2pi]
          exact hεlt
        linarith
      · have : 0 < ε / (2 * Real.pi) := div_pos hpos h2pi
        linarith
    have hpm : python_mod (Real.pi - ε + Real.pi) (2 * Real.pi) = 2 * Real.pi - ε := by
      rw [python_mod, harg, hfr]
      field_simp
    simp only [mod_2pi, hpm]
    rw [if_pos]
    have : 2 * Real.pi - ε - Real.pi - Real.pi = -ε := by ring
    rw [this, abs_neg, abs_of_nonneg hε]
    exact hlt

/-- C6: the phase wrap `_mod_2pi` used by `_pad` on the circuit's global
phase always lands in `[-π, π)`, and for every `ε` below the tolerance
`atol`, wrapping `π - ε` is clamped exactly to `-π`. -/
theorem c6_mod_2pi_range_and_clamp :
    (∀ angle atol : ℝ, mod_2pi angle atol ∈ Set.Ico (-Real.pi) Real.pi) ∧
    (∀ ε atol : ℝ, 0 ≤ ε → ε < atol → atol ≤ 2 * Real.pi →
      mod_2pi (Real.pi - ε) atol = -Real.pi) :=
  ⟨mod_2pi_mem, fun _ _ h1 h2 h3 => mod_2pi_clamp h1 h2 h3⟩

theorem c6_witness :
    mod_2pi 0 0 ∈ Set.Ico (-Real.pi) Real.pi ∧ mod_2pi (Real.pi - 1) 2 = -Real.pi :=
  ⟨c6_mod_2pi_range_and_clamp.1 0 0,
   c6_mod_2pi_range_and_clamp.2 1 2 (by norm_num) (by norm_num)
     (by nlinarith [Real.pi_gt_three])⟩

/-- C1: for every positive slack, spacing policy of `n+1` non-negative
fractions summing to 1, positive alignment constraint, and both recognized
`extra_slack_distribution` values, the `n+1` delays computed by
`allocate_spacing` sum exactly to the slack. -/
theorem c1_allocate_spacing_conserves_slack
    (alignment slack : ℤ) (spacing : List ℚ) (dist : String)
    (hslack : 0 < slack) (hA : 0 < alignment)
    (hlen : 2 ≤ spacing.length) (hsum : spacing.sum = 1)
    (hnn : ∀ f ∈ spacing, 0 ≤ f)
    (hdist : dist = "middle" ∨ dist = "edges") :
    ∃ taus, allocate_spacing alignment slack spacing dist = .ok taus ∧
      taus.length = spacing.length ∧ taus.sum = slack := by
  obtain ⟨taus, hok⟩ := allocate_spacing_ok alignment slack spacing hdist
  refine ⟨taus, hok, allocate_spacing_length hok, ?_⟩
  exact allocate_spacing_sum (List.length_pos.mp (by omega)) hok

theorem c1_witness :
    ∃ taus, allocate_spacing 16 101 (default_spacing 2) "middle" = .ok taus ∧
      taus.length = (default_spacing 2).length ∧ taus.sum = 101 :=
  c1_allocate_spacing_conserves_slack 16 101 (default_spacing 2) "middle"
    (by norm_num) (by norm_num)
    (by simp [default_spacing]) (by simp [default_spacing]; norm_num)
    (by intro f hf; simp [default_spacing] at hf; rcases hf with h | h | h <;> rw [h] <;> norm_num)
    (Or.inl rfl)

theorem c2_counterexample :
    allocate_spacing 16 101 (default_spacing 2) "edges" = .ok [16, 48, 37] ∧
      ¬ ((16 : ℤ) ∣ 37) := by
  constructor
  · simp [allocate_spacing, dd_taus, default_spacing, constrained_length,
      distribute_edges, add_at]
    norm_num
  · decide

/-- C2 (amended): for every positive slack, valid spacing policy, positive
alignment constraint, and recognized `extra_slack_distribution`, every
computed delay is a multiple of the alignment except possibly the last delay
— under `"edges"` as well as under `"middle"` (the `"edges"` branch adds the
whole unaligned remainder `extra_slack - to_begin_edge` to the last delay). -/
theorem c2_alignment_except_last
    (alignment slack : ℤ) (spacing : List ℚ) (dist : String)
    (hslack : 0 < slack) (hA : 0 < alignment)
    (hlen : 2 ≤ spacing.length) (hsum : spacing.sum = 1)
    (hnn : ∀ f ∈ spacing, 0 ≤ f)
    (hdist : dist = "middle" ∨ dist = "edges") :
    ∃ taus, allocate_spacing alignment slack spacing dist = .ok taus ∧
      ∀ i, i + 1 < taus.length → alignment ∣ taus.getD i 0 := by
  obtain ⟨taus, hok⟩ := allocate_spacing_ok alignment slack spacing hdist
  exact ⟨taus, hok, allocate_spacing_dvd hA hlen hok⟩

theorem c2_witness :
    ∃ taus, allocate_spacing 16 101 (default_spacing 2) "edges" = .ok taus ∧
      ∀ i, i + 1 < taus.length → (16 : ℤ) ∣ taus.getD i 0 :=
  c2_alignment_except_last 16 101 (default_spacing 2) "edges"
    (by norm_num) (by norm_num)
    (by simp [default_spacing]) (by simp [default_spacing]; norm_num)
    (by intro f hf; simp [default_spacing] at hf; rcases hf with h | h | h <;> rw [h] <;> norm_num)
    (Or.inr rfl)

/-- C4: Scenario B — slack 101, alignment 16, the default 2-gate spacing
`[1/4, 1/2, 1/4]`, distribution `"middle"`: the raw constrained delays are
`[16, 48, 16]`, the extra slack is 21, `16 * floor(21/16) = 16` goes to the
middle delay and the remainder 5 to the last, giving `[16, 64, 21]`. -/
theorem c4_scenario_b :
    default_spacing 2 = [1/4, 1/2, 1/4] ∧
    dd_taus 16 101 (default_spacing 2) = [16, 48, 16] ∧
    101 - (dd_taus 16 101 (default_spacing 2)).sum = 21 ∧
    allocate_spacing 16 101 (default_spacing 2) "middle" = .ok [16, 64, 21] := by
  refine ⟨?_, ?_, ?_, ?_⟩
  · simp [default_spacing]
    norm_num
  · simp [dd_taus, default_spacing, constrained_length]
    norm_num
  · simp [dd_taus, default_spacing, constrained_length]
    norm_num
  · simp [allocate_spacing, dd_taus, default_spacing, constrained_length,
      distribute_middle, add_at]
    norm_num

theorem x_mat_mul_x_mat : x_mat * x_mat = 1 := by
  ext i j
  fin_cases i <;> fin_cases j <;>
    simp [x_mat, Matrix.mul_apply, Fin.sum_univ_two, Matrix.one_apply]

theorem fold_xx : ([x_mat, x_mat].foldl (· * ·) (1 : Matrix (Fin 2) (Fin 2) ℂ)) = 1 := by
  simp only [List.foldl]
  rw [one_mul, x_mat_mul_x_mat]

theorem first_significant_one :
    first_significant (1 : Matrix (Fin 2) (Fin 2) ℂ) = some 1 := by
  have h : (1 : Matrix (Fin 2) (Fin 2) ℂ) 0 0 = 1 := Matrix.one_apply_eq 0
  rw [first_significant, h]
  rw [if_pos]
  rw [map_one, ATOL_DEFAULT]
  norm_num

theorem dephase_one : dephase (1 : Matrix (Fin 2) (Fin 2) ℂ) = 1 := by
  simp only [dephase, first_significant_one, Complex.arg_one, Complex.ofReal_zero,
    neg_zero, zero_mul, Complex.exp_zero, one_smul]

theorem matrix_equal_ignore_phase_one_one :
    matrix_equal_ignore_phase (1 : Matrix (Fin 2) (Fin 2) ℂ) 1 := by
  rw [matrix_equal_ignore_phase, dephase_one]
  intro i j
  rw [sub_self, map_zero]
  have h1 : (0 : ℝ) ≤ ATOL_DEFAULT := by rw [ATOL_DEFAULT]; norm_num
  have h2 : (0 : ℝ) ≤ RTOL_DEFAULT := by rw [RTOL_DEFAULT]; norm_num
  have h3 : (0 : ℝ) ≤ Complex.abs ((1 : Matrix (Fin 2) (Fin 2) ℂ) i j) :=
    Complex.abs.nonneg _
  nlinarith

/-- C3: for every DD sequence of even length at least 2, the sequence
validation step of `_pre_runhook` raises if and only if the ordered matrix
product of the unitaries fails the identity-up-to-global-phase test (within
the fixed numerical tolerance), and on success the stored sequence phase is
the residual phase angle `np.angle(noop[0][0])` of that product. -/
theorem c3_sequence_validator_iff
    (dd_sequence : List (Matrix (Fin 2) (Fin 2) ℂ))
    (h2 : 2 ≤ dd_sequence.length) (heven : dd_sequence.length % 2 = 0) :
    ((∃ e, check_dd_sequence dd_sequence = .error e) ↔
      ¬ matrix_equal_ignore_phase (dd_sequence.foldl (· * ·) 1) 1) ∧
    (∀ φ, check_dd_sequence dd_sequence = .ok φ →
      φ = Complex.arg ((dd_sequence.foldl (· * ·) (1 : Matrix (Fin 2) (Fin 2) ℂ)) 0 0)) := by
  have hne : dd_sequence.length ≠ 1 := by omega
  have hmod : ¬ dd_sequence.length % 2 ≠ 0 := by omega
  simp only [check_dd_sequence, if_pos hne, if_neg hmod]
  by_cases hM : matrix_equal_ignore_phase (dd_sequence.foldl (· * ·) 1) 1
  · rw [if_pos hM]
    constructor
    · constructor
      · rintro ⟨e, he⟩
        cases he
      · intro h
        exact absurd hM h
    · intro φ hφ
      cases hφ
      rfl
  · rw [if_neg hM]
    constructor
    · exact ⟨fun _ => hM, fun _ => ⟨_, rfl⟩⟩
    · intro φ hφ
      cases hφ

theorem c3_witness :
    ((∃ e, check_dd_sequence [x_mat, x_mat] = .error e) ↔
      ¬ matrix_equal_ignore_phase ([x_mat, x_mat].foldl (· * ·) 1) 1) ∧
    (∀ φ, check_dd_sequence [x_mat, x_mat] = .ok φ →
      φ = Complex.arg (([x_mat, x_mat].foldl (· * ·) (1 : Matrix (Fin 2) (Fin 2) ℂ)) 0 0)) :=
  c3_sequence_validator_iff [x_mat, x_mat] (by decide) (by decide)

theorem check_dd_sequence_xx : check_dd_sequence [x_mat, x_mat] = Except.ok 0 := by
  have h1 : ([x_mat, x_mat] : List (Matrix (Fin 2) (Fin 2) ℂ)).length ≠ 1 := by decide
  have h2 : ¬ ([x_mat, x_mat] : List (Matrix (Fin 2) (Fin 2) ℂ)).length % 2 ≠ 0 := by decide
  simp only [check_dd_sequence, if_pos h1, if_neg h2, fold_xx,
    if_pos matrix_equal_ignore_phase_one_one]
  rw [show ((1 : Matrix (Fin 2) (Fin 2) ℂ) 0 0) = 1 from Matrix.one_apply_eq 0,
    Complex.arg_one]

theorem emit_seq_tiles (l : List (Option ℤ × Option ℤ)) (i : ℕ) (idle : ℤ) :
    tiles_from idle (emit_seq l i idle).1 (emit_seq l i idle).2 := by
  induction l generalizing i idle with
  | nil => simp [emit_seq, tiles_from]
  | cons p rest ih =>
    obtain ⟨tau?, len?⟩ := p
    cases tau? with
    | none =>
      cases len? with
      | none =>
        simpa [emit_seq, tiles_from] using ih (i + 1) idle
      | some gl =>
        simp only [emit_seq, tiles_from, op_duration, List.nil_append, List.cons_append]
        exact ⟨by simp, ih (i + 1) (idle + gl)⟩
    | some tau =>
      cases len? with
      | none =>
        by_cases ht : 0 < tau
        · simp only [emit_seq, if_pos ht, tiles_from, op_duration, List.cons_append,
            List.nil_append, List.append_nil]
          exact ⟨by simp, ih (i + 1) (idle + tau)⟩
        · simpa [emit_seq, if_neg ht, tiles_from] using ih (i + 1) idle
      | some gl =>
        by_cases ht : 0 < tau
        · simp only [emit_seq, if_pos ht, tiles_from, op_duration, List.cons_append,
            List.nil_append]
          exact ⟨by simp, by simp, ih (i + 1) (idle + tau + gl)⟩
        · simp only [emit_seq, if_neg ht, tiles_from, op_duration, List.cons_append,
            List.nil_append]
          exact ⟨by simp, ih (i + 1) (idle + gl)⟩

theorem emit_seq_end (l : List (Option ℤ × Option ℤ)) (i : ℕ) (idle : ℤ) :
    (emit_seq l i idle).2 = idle + (l.map zip_contrib).sum := by
  induction l generalizing i idle with
  | nil => simp [emit_seq]
  | cons p rest ih =>
    obtain ⟨tau?, len?⟩ := p
    cases tau? with
    | none =>
      cases len? with
      | none =>
        simp [emit_seq, zip_contrib, ih]
      | some gl =>
        simp [emit_seq, zip_contrib, ih]
        ring
    | some tau =>
      cases len? with
      | none =>
        by_cases ht : 0 < tau
        · simp [emit_seq, zip_contrib, ht, ih]
          try ring
        · simp [emit_seq, zip_contrib, ht, ih]
          try ring
      | some gl =>
        by_cases ht : 0 < tau
        · simp [emit_seq, zip_contrib, ht, ih]
          try ring
        · simp [emit_seq, zip_contrib, ht, ih]
          try ring

theorem emit_seq_delay_pos (l : List (Option ℤ × Option ℤ)) (i : ℕ) (idle : ℤ) :
    ∀ p ∈ (emit_seq l i idle).1, ∀ d, p.2 = PadOp.delay d → 0 < d := by
  induction l generalizing i idle with
  | nil => simp [emit_seq]
  | cons q rest ih =>
    obtain ⟨tau?, len?⟩ := q
    intro p hp d hd
    cases tau? with
    | none =>
      cases len? with
      | none =>
        exact ih (i + 1) idle p (by simpa [emit_seq] using hp) d hd
      | some gl =>
        simp only [emit_seq, List.nil_append, List.cons_append, List.mem_cons] at hp
        rcases hp with h | h
        · subst h
          cases hd
        · exact ih (i + 1) (idle + gl) p h d hd
    | some tau =>
      cases len? with
      | none =>
        by_cases ht : 0 < tau
        · simp only [emit_seq, if_pos ht, List.cons_append, List.nil_append,
            List.append_nil, List.mem_cons] at hp
          rcases hp with h | h
          · subst h
            cases hd
            exact ht
          · exact ih (i + 1) (idle + tau) p h d hd
        · exact ih (i + 1) idle p (by simpa [emit_seq, if_neg ht] using hp) d hd
      | some gl =>
        by_cases ht : 0 < tau
        · simp only [emit_seq, if_pos ht, List.cons_append, List.nil_append,
            List.mem_cons] at hp
          rcases hp with h | h | h
          · subst h
            cases hd
            exact ht
          · subst h
            cases hd
          · exact ih (i + 1) (idle + tau + gl) p h d hd
        · simp only [emit_seq, if_neg ht, List.cons_append, List.nil_append,
            List.mem_cons] at hp
          rcases hp with h | h
          · subst h
            cases hd
          · exact ih (i + 1) (idle + gl) p h d hd

theorem pad_zip_nil_contrib (lens : List ℤ) :
    ((pad_zip [] lens).map zip_contrib).sum = lens.sum := by
  induction lens with
  | nil => simp [pad_zip]
  | cons l ls ih => simp [pad_zip, zip_contrib, ih]

theorem pad_zip_contrib_sum (taus lens : List ℤ) (h : ∀ t ∈ taus, 0 ≤ t) :
    ((pad_zip taus lens).map zip_contrib).sum = taus.sum + lens.sum := by
  induction taus generalizing lens with
  | nil => simpa using pad_zip_nil_contrib lens
  | cons t ts ih =>
    have ht : (if 0 < t then t else 0) = t := by
      have := h t (List.mem_cons_self t ts)
      split <;> omega
    have hts : ∀ u ∈ ts, 0 ≤ u := fun u hu => h u (List.mem_cons_of_mem t hu)
    cases lens with
    | nil =>
      simp only [pad_zip, List.map_cons, List.sum_cons, zip_contrib, ht, ih [] hts]
      try simp
      try ring
    | cons l ls =>
      simp only [pad_zip, List.map_cons, List.sum_cons, zip_contrib, ht, ih ls hts]
      try simp
      try ring

theorem pad_skip_reset_eq (cfg : DDParams) (spacing : List ℚ) (sequence_phase : ℝ)
    (fns : EulerFns) (iv : IntervalData) (global_phase : ℝ)
    (hskip : cfg.skip_reset_qubits = true)
    (hprev : is_in_or_reset iv.prev_node = true) :
    pad cfg spacing sequence_phase fns iv global_phase =
      .ok ⟨[(iv.t_start, PadOp.delay (iv.t_end - iv.t_start))],
        iv.next_node, iv.prev_node, global_phase⟩ := by
  simp only [pad]
  split
  · rfl
  · rw [hskip, hprev]
    rfl

/-- C9: whenever `skip_reset_qubits` is enabled and the predecessor of the
idle interval is the qubit's start edge or a `Reset`, `_pad` emits exactly one
delay spanning the whole interval, leaving the neighbors and the global phase
unchanged, regardless of the slack computation or the sequence fit. -/
theorem c9_skip_reset_full_delay (cfg : DDParams) (spacing : List ℚ)
    (sequence_phase : ℝ) (fns : EulerFns) (iv : IntervalData) (global_phase : ℝ)
    (hskip : cfg.skip_reset_qubits = true)
    (hprev : is_in_or_reset iv.prev_node = true) :
    pad cfg spacing sequence_phase fns iv global_phase =
      .ok ⟨[(iv.t_start, PadOp.delay (iv.t_end - iv.t_start))],
        iv.next_node, iv.prev_node, global_phase⟩ :=
  pad_skip_reset_eq cfg spacing sequence_phase fns iv global_phase hskip hprev

theorem c9_witness :
    pad cfg_xx (default_spacing 2) 0 euler_fns0 iv_reset 0 =
      .ok ⟨[((0 : ℤ), PadOp.delay 100)], iv_reset.next_node, iv_reset.prev_node, 0⟩ := by
  have h := c9_skip_reset_full_delay cfg_xx (default_spacing 2) 0 euler_fns0 iv_reset 0
    rfl rfl
  simpa [iv_reset] using h

/-- C8: for a length-1 sequence with positive slack, when neither the
successor nor the predecessor is a `UGate`/`U3Gate` rotation, `_pad` falls
back to a single delay spanning the whole interval and leaves the neighbors'
parameters and the accumulated phase untouched. -/
theorem c8_single_gate_no_absorber_full_delay (cfg : DDParams) (spacing : List ℚ)
    (sequence_phase : ℝ) (fns : EulerFns) (iv : IntervalData) (global_phase : ℝ)
    (hlen : cfg.dd_sequence.length = 1)
    (hslack : 0 < iv.t_end - iv.t_start - iv.seq_lengths.sum)
    (hnext : is_u3_node iv.next_node = false)
    (hprev : is_u3_node iv.prev_node = false) :
    pad cfg spacing sequence_phase fns iv global_phase =
      .ok ⟨[(iv.t_start, PadOp.delay (iv.t_end - iv.t_start))],
        iv.next_node, iv.prev_node, global_phase⟩ := by
  simp only [pad]
  split
  · rfl
  · split
    · rfl
    · have hns : ¬ iv.t_end - iv.t_start - iv.seq_lengths.sum ≤ 0 := by omega
      simp [hns, hlen, hnext, hprev]

theorem c8_witness :
    pad cfg_single (default_spacing 1) 0 euler_fns0 iv_plain 0 =
      .ok ⟨[((0 : ℤ), PadOp.delay 50)], iv_plain.next_node, iv_plain.prev_node, 0⟩ := by
  have h := c8_single_gate_no_absorber_full_delay cfg_single (default_spacing 1) 0
    euler_fns0 iv_plain 0 rfl (by norm_num [iv_plain]) rfl rfl
  simpa [iv_plain] using h

theorem check_dd_sequence_odd {gates : List (Matrix (Fin 2) (Fin 2) ℂ)}
    (hodd : gates.length % 2 = 1) (hgt : 1 < gates.length) :
    check_dd_sequence gates =
      .error "DD sequence must contain an even number of gates (or 1)." := by
  rw [check_dd_sequence, if_pos (by omega : gates.length ≠ 1),
    if_pos (by omega : gates.length % 2 ≠ 0)]

/-- C7: for every DD sequence whose length is odd and greater than 1, the
whole pass fails with a configuration error at setup, before any interval is
processed and with nothing emitted onto the timeline. -/
theorem c7_odd_length_setup_error (cfg : DDParams) (fns : EulerFns)
    (physical_circuit : Bool) (tbl : DurTable) (qubit_indices : List ℕ)
    (intervals : List IntervalData) (initial_phase : ℝ)
    (hodd : cfg.dd_sequence.length % 2 = 1) (hgt : 1 < cfg.dd_sequence.length) :
    ∃ e, run_pass cfg fns physical_circuit tbl qubit_indices intervals initial_phase
      = ([], some e) := by
  have hpre : ∃ e, pre_runhook cfg physical_circuit tbl qubit_indices = .error e := by
    simp only [pre_runhook]
    cases physical_circuit with
    | false => exact ⟨_, rfl⟩
    | true =>
      rw [if_neg (by simp)]
      cases hval : validate_spacing cfg.dd_sequence.length cfg.spacing with
      | error e => exact ⟨e, rfl⟩
      | ok sp =>
        simp only [check_dd_sequence_odd hodd hgt]
        exact ⟨_, rfl⟩
  obtain ⟨e, he⟩ := hpre
  refine ⟨e, ?_⟩
  simp only [run_pass, he]

theorem c7_witness :
    ∃ e, run_pass cfg_xxx euler_fns0 true dur_table0 [0] [iv_fill] 0 = ([], some e) :=
  c7_odd_length_setup_error cfg_xxx euler_fns0 true dur_table0 [0] [iv_fill] 0
    (by decide) (by decide)

theorem pad_fill_tiles (cfg : DDParams) (spacing : List ℚ) (iv : IntervalData)
    (n1 p1 : PadNode) (sgp gp : ℝ) (res : PadResult)
    (hA : 0 < cfg.pulse_alignment) (hsp : 2 ≤ spacing.length)
    (hsum : spacing.sum = 1) (hnn : ∀ f ∈ spacing, 0 ≤ f)
    (hslack : 0 < iv.t_end - iv.t_start - iv.seq_lengths.sum)
    (hok : pad_fill cfg spacing iv n1 p1 sgp
      (iv.t_end - iv.t_start - iv.seq_lengths.sum) gp = .ok res) :
    tiles_from iv.t_start res.emitted iv.t_end ∧
      ∀ p ∈ res.emitted, ∀ d, p.2 = PadOp.delay d → 0 < d := by
  simp only [pad_fill] at hok
  cases halloc : allocate_spacing cfg.pulse_alignment
      (iv.t_end - iv.t_start - iv.seq_lengths.sum) spacing cfg.extra_slack_distribution with
  | error e =>
    rw [halloc] at hok
    cases hok
  | ok taus =>
    rw [halloc] at hok
    cases hok
    constructor
    · have h1 := emit_seq_tiles (pad_zip taus iv.seq_lengths) 0 iv.t_start
      have h2 := emit_seq_end (pad_zip taus iv.seq_lengths) 0 iv.t_start
      have hnneg := allocate_spacing_nonneg hA (by omega) hsum hnn halloc
      have h3 := pad_zip_contrib_sum taus iv.seq_lengths hnneg
      have hts : taus.sum = iv.t_end - iv.t_start - iv.seq_lengths.sum :=
        allocate_spacing_sum (List.length_pos.mp (by omega)) halloc
      rw [h2, h3, hts] at h1
      have heq : iv.t_start + (iv.t_end - iv.t_start - iv.seq_lengths.sum + iv.seq_lengths.sum)
          = iv.t_end := by ring
      rw [heq] at h1
      exact h1
    · exact fun p hp d hd => emit_seq_delay_pos _ _ _ p hp d hd

/-- C10: whenever `_pad` succeeds on an idle interval under a valid
configuration, the emitted operations tile the interval contiguously —
starting at `t_start`, each operation starting exactly where the previous one
ended, and ending exactly at `t_end` — and a delay slot whose allocated
length is zero (or negative) is never emitted. -/
theorem c10_fill_tiles_interval (cfg : DDParams) (spacing : List ℚ)
    (sequence_phase : ℝ) (fns : EulerFns) (iv : IntervalData) (global_phase : ℝ)
    (res : PadResult)
    (hA : 0 < cfg.pulse_alignment) (hsp : 2 ≤ spacing.length)
    (hsum : spacing.sum = 1) (hnn : ∀ f ∈ spacing, 0 ≤ f)
    (hpos : 0 < iv.t_end - iv.t_start)
    (hok : pad cfg spacing sequence_phase fns iv global_phase = .ok res) :
    tiles_from iv.t_start res.emitted iv.t_end ∧
      ∀ p ∈ res.emitted, ∀ d, p.2 = PadOp.delay d → 0 < d := by
  have hskip : ∀ (n2 p2 : PadNode) (g2 : ℝ),
      (Except.ok ⟨[(iv.t_start, PadOp.delay (iv.t_end - iv.t_start))], n2, p2, g2⟩ :
        Except String PadResult) = .ok res →
      tiles_from iv.t_start res.emitted iv.t_end ∧
        ∀ p ∈ res.emitted, ∀ d, p.2 = PadOp.delay d → 0 < d := by
    intro n2 p2 g2 h
    cases h
    constructor
    · refine ⟨rfl, ?_⟩
      simp only [tiles_from, op_duration]
      omega
    · intro p hp d hd
      simp only [List.mem_singleton] at hp
      subst hp
      cases hd
      omega
  simp only [pad] at hok
  split at hok
  · exact hskip _ _ _ hok
  · split at hok
    · exact hskip _ _ _ hok
    · split at hok
      · exact hskip _ _ _ hok
      · split at hok
        · split at hok
          · exact pad_fill_tiles cfg spacing iv _ _ _ _ res hA hsp hsum hnn (by omega) hok
          · split at hok
            · exact pad_fill_tiles cfg spacing iv _ _ _ _ res hA hsp hsum hnn (by omega) hok
            · exact hskip _ _ _ hok
        · exact pad_fill_tiles cfg spacing iv _ _ _ _ res hA hsp hsum hnn (by omega) hok

theorem alloc_mid_200 :
    allocate_spacing 1 200 (default_spacing 2) "middle" = .ok [50, 100, 50] := by
  simp [allocate_spacing, dd_taus, default_spacing, constrained_length,
    distribute_middle, add_at]
  norm_num

theorem pad_fill_xx :
    pad cfg_xx (default_spacing 2) 0 euler_fns0 iv_fill 0 =
      .ok ⟨[((0 : ℤ), PadOp.delay 50), ((50 : ℤ), PadOp.gate 0 50),
            ((100 : ℤ), PadOp.delay 100), ((200 : ℤ), PadOp.gate 1 50),
            ((250 : ℤ), PadOp.delay 50)],
        iv_fill.next_node, iv_fill.prev_node, mod_2pi 0 0⟩ := by
  simp only [pad, cfg_xx, iv_fill]
  norm_num [is_in_or_reset]
  simp only [pad_fill]
  rw [alloc_mid_200]
  norm_num [pad_zip, emit_seq]

theorem c10_witness :
    tiles_from 0 [((0 : ℤ), PadOp.delay 50), ((50 : ℤ), PadOp.gate 0 50),
      ((100 : ℤ), PadOp.delay 100), ((200 : ℤ), PadOp.gate 1 50),
      ((250 : ℤ), PadOp.delay 50)] 300 ∧
    ∀ p ∈ [((0 : ℤ), PadOp.delay 50), ((50 : ℤ), PadOp.gate 0 50),
      ((100 : ℤ), PadOp.delay 100), ((200 : ℤ), PadOp.gate 1 50),
      ((250 : ℤ), PadOp.delay 50)], ∀ d, p.2 = PadOp.delay d → 0 < d := by
  have h := c10_fill_tiles_interval cfg_xx (default_spacing 2) 0 euler_fns0 iv_fill 0 _
    (by norm_num [cfg_xx]) (by simp [default_spacing])
    (by simp [default_spacing]; norm_num)
    (by intro f hf; simp [default_spacing] at hf; rcases hf with h | h | h <;> rw [h] <;> norm_num)
    (by norm_num [iv_fill]) pad_fill_xx
  simpa [iv_fill] using h

theorem pre_runhook_bogus :
    pre_runhook cfg_bogus true dur_table0 [0] =
      .ok ⟨default_spacing 2, 0, [[50, 50]]⟩ := by
  simp only [pre_runhook, cfg_bogus]
  rw [if_neg (by simp)]
  simp only [validate_spacing, check_dd_sequence_xx]
  rfl

theorem pad_bogus_fill :
    pad cfg_bogus (default_spacing 2) 0 euler_fns0 iv_fill 0 =
      .error "Option extra_slack_distribution = junk is invalid." := by
  simp only [pad, cfg_bogus, iv_fill]
  norm_num [is_in_or_reset]
  simp only [pad_fill, allocate_spacing]
  rw [if_neg (by decide : ¬ ("junk" : String) = "middle"),
    if_neg (by decide : ¬ ("junk" : String) = "edges")]
  rfl

/-- C5 (amended): every configuration error detected by `_pre_runhook` (the
physical-circuit check, the spacing validation, the sequence length/identity
checks, and the calibrated-duration alignment check) aborts the pass at setup
with nothing emitted onto the timeline; but `_pre_runhook` never inspects
`extra_slack_distribution`, whose unrecognized values are only rejected
inside `_pad`, per idle interval. -/
theorem c5_setup_vs_interval_errors :
    (∀ (cfg : DDParams) (fns : EulerFns) (physical_circuit : Bool) (tbl : DurTable)
        (qubit_indices : List ℕ) (intervals : List IntervalData) (initial_phase : ℝ)
        (e : String),
      pre_runhook cfg physical_circuit tbl qubit_indices = .error e →
      run_pass cfg fns physical_circuit tbl qubit_indices intervals initial_phase
        = ([], some e)) ∧
    (∀ (cfg : DDParams) (physical_circuit : Bool) (tbl : DurTable)
        (qubit_indices : List ℕ) (d : String),
      pre_runhook
          (DDParams.mk cfg.dd_sequence cfg.qubits cfg.spacing cfg.skip_reset_qubits
            cfg.pulse_alignment d) physical_circuit tbl qubit_indices
        = pre_runhook cfg physical_circuit tbl qubit_indices) := by
  constructor
  · intro cfg fns phys tbl qs ivs ip e he
    simp only [run_pass, he]
  · intro cfg phys tbl qs d
    rfl

theorem c5_witness :
    run_pass cfg_bogus euler_fns0 false dur_table0 [0] [iv_fill] 0 =
      ([], some "DD runs on physical circuits only.") :=
  c5_setup_vs_interval_errors.1 cfg_bogus euler_fns0 false dur_table0 [0] [iv_fill] 0
    "DD runs on physical circuits only." rfl

theorem c5_counterexample :
    pre_runhook cfg_bogus true dur_table0 [0] =
      .ok ⟨default_spacing 2, 0, [[50, 50]]⟩ ∧
    run_pass cfg_bogus euler_fns0 true dur_table0 [0] [iv_reset, iv_fill] 0 =
      ([((0 : ℤ), PadOp.delay 100)],
        some "Option extra_slack_distribution = junk is invalid.") := by
  refine ⟨pre_runhook_bogus, ?_⟩
  simp only [run_pass, pre_runhook_bogus]
  simp only [run_intervals,
    pad_skip_reset_eq cfg_bogus (default_spacing 2) 0 euler_fns0 iv_reset 0 rfl rfl,
    pad_bogus_fill]
  simp [iv_reset]
